import Mathlib

/-!
# Verification of the temp2fa TOTP account store

A shallow embedding of the core of `temp2fa.py` (class `TOTPManager`, the
otpauth URI extraction, the import/export and rename code of
`TOTPManagerGUI`, and the entry dialogs), together with theorems settling
the specification claims.

Conventions of the embedding:
* Python dicts with string keys become association lists
  `List (String × α)`; a Python dict always has pairwise distinct keys,
  so theorems about arbitrary dict states may assume `Nodup` keys.
* Fallible operations (Python functions returning `False`/`None` on a
  caught exception) return `Option`.
* `time.time()` values (floats) are modelled as rationals, passed in
  explicitly as a `now` argument.
-/

namespace Temp2FA

/-! ## Decimal rendering of naturals

Python renders the collision counter with `f"..._{counter}"`, i.e. in
decimal; Lean's `Nat.repr` is the same rendering.  We characterise
`Nat.repr` by a structural recursion and prove it injective, which is
what makes the collision-suffix loops of `add_account_from_qr`,
`add_account_manual` and `rename_account` terminate with a fresh key. -/

/-- Decimal digit characters of `n`, most significant first.  This is the
mathematical characterisation of `Nat.repr`. -/
def decChars (n : Nat) : List Char :=
  if _h : n < 10 then [Nat.digitChar n]
  else decChars (n / 10) ++ [Nat.digitChar (n % 10)]
decreasing_by exact Nat.div_lt_self (by omega) (by omega)

/-! ## Collision-suffix key derivation

`add_account_from_qr`, `add_account_manual` and `rename_account` all
derive a store key by the same while loop:

    name = base; counter = 1
    while <name is taken>: name = f"base_counter"; counter += 1

`findKeyLoop` is that loop; the fuel argument is justified below: with
fuel `L + 1`, where every "taken" name lies in a list of length `L`, the
loop provably stops at a candidate that is not taken (the candidates are
pairwise distinct, so they cannot all be taken). -/

/-- The candidate key for counter value `c`: Python `f"base_c"`. -/
def suffixKey (base : String) (c : Nat) : String :=
  base ++ "_" ++ Nat.repr c

/-- The collision loop.  `bad name` is the loop guard (`name` is taken);
`c` the next counter value. -/
def findKeyLoop (bad : String → Bool) (base : String) : String → Nat → Nat → String
  | name, _, 0 => name
  | name, c, fuel + 1 =>
    if bad name then findKeyLoop bad base (suffixKey base c) (c + 1) fuel else name

/-- Key derivation of the two add paths (`add_account_from_qr` lines
254-260, `add_account_manual` lines 282-287): first free name among
`base, base_1, base_2, …`. -/
def deriveKey (keys : List String) (base : String) : String :=
  findKeyLoop (fun n => decide (n ∈ keys)) base base 1 (keys.length + 1)

/-- Key derivation of `rename_account` (lines 941-945): same loop, but the
record's own current key is an allowed (non-"taken") target. -/
def deriveRenameKey (keys : List String) (base own : String) : String :=
  findKeyLoop (fun n => decide (n ∈ keys ∧ n ≠ own)) base base 1 (keys.length + 1)

/-! ## Secrets: normalization and pyotp validation

`add_account_manual` cleans the secret with
`secret.replace(' ', '').replace('-', '').upper()`.  Validation is
`pyotp.TOTP(secret); totp.now()`, which succeeds iff
`base64.b32decode(padded, casefold=True)` succeeds, where `padded` pads
the secret with `'='` to a multiple of 8 (pyotp `byte_secret`).  We model
that success condition as a boolean predicate; the numeric code itself is
never the subject of a claim, so HMAC-SHA1 is not modelled.

Modelling notes: `str.upper` is modelled on ASCII letters (`Char.toUpper`),
which is exact for every character base32 decoding can accept. -/

/-- The base32 alphabet accepted by `base64.b32decode` (no padding). -/
def isB32Char (c : Char) : Bool :=
  ('A' ≤ c && c ≤ 'Z') || ('2' ≤ c && c ≤ '7')

/-- Python `s.upper()` (ASCII fragment). -/
def pyUpper (s : List Char) : List Char := s.map Char.toUpper

/-- pyotp `byte_secret` padding: append `'='` up to a multiple of 8. -/
def padTo8 (s : List Char) : List Char :=
  s ++ List.replicate ((8 - s.length % 8) % 8) '='

/-- Success of `base64.b32decode(s, casefold=True)`: length a multiple of
8, all characters other than trailing padding in the base32 alphabet
(after upper-casing), and a legal count of trailing `'='` characters
(`{0, 1, 3, 4, 6}`, checked modulo 8 blocks by CPython). -/
def b32decodeOk (s : List Char) : Bool :=
  let u := pyUpper s
  let body := (u.reverse.dropWhile (fun c => c = '=')).reverse
  let padchars := u.length - body.length
  s.length % 8 = 0 && body.all isB32Char &&
    (padchars = 0 || padchars = 1 || padchars = 3 || padchars = 4 || padchars = 6)

/-- `pyotp.TOTP(secret)` followed by `totp.now()` raises no exception. -/
def totpConstructs (secret : String) : Bool :=
  b32decodeOk (padTo8 secret.data)

/-- `secret.replace(' ', '').replace('-', '').upper()` — the normalization
of the manual-add path (`add_account_manual` line 278), identical to the
spec's `SecretCodec.normalize`. -/
def cleanSecret (s : String) : String :=
  (pyUpper ((s.data.filter (fun c => c ≠ ' ')).filter (fun c => c ≠ '-'))).asString

/-- A secret is in normalized form when normalizing it changes nothing. -/
def isNormalizedSecret (s : String) : Bool := cleanSecret s = s

/-! ## The account store

`TOTPManager.secrets` is a Python dict mapping the account key to a
record dict with fields `secret`, `account`, `issuer`, `added`.  We model
the records as a structure and the dict as an association list in
insertion order, with the dict operations made explicit. -/

structure AccountRecord where
  secret : String
  account : String
  issuer : String
  added : ℚ
deriving DecidableEq

/-- `TOTPManager.secrets`. -/
abbrev Store := List (String × AccountRecord)

def storeKeys (s : Store) : List String := s.map Prod.fst

/-- Python dict assignment `d[k] = v`: overwrite in place if the key is
present, else append. -/
def dictInsert {α : Type} (s : List (String × α)) (k : String) (v : α) :
    List (String × α) :=
  if k ∈ s.map Prod.fst then s.map (fun p => if p.1 = k then (k, v) else p)
  else s ++ [(k, v)]

/-- Python `del d[k]`. -/
def dictRemove {α : Type} (s : List (String × α)) (k : String) : List (String × α) :=
  s.filter (fun p => p.1 ≠ k)

/-- Python `d.update(d2)`: assign every pair of `d2` in order. -/
def dictUpdate {α : Type} (s : List (String × α)) (s2 : List (String × α)) :
    List (String × α) :=
  s2.foldl (fun acc p => dictInsert acc p.1 p.2) s

/-- The candidate produced by QR parsing (`extract_secret_from_image`). -/
structure Candidate where
  secret : String
  account : String
  issuer : String
deriving DecidableEq

/-- `TOTPManager.add_account_from_qr` (lines 247-272).  Validates the
candidate secret with pyotp and inserts it verbatim; returns `none` for
the `except`/`return False` path. -/
def addAccountFromQr (store : Store) (qr : Candidate) (now : ℚ) : Option Store :=
  if totpConstructs qr.secret then
    let key := deriveKey (storeKeys store) (qr.issuer ++ "_" ++ qr.account)
    some (dictInsert store key ⟨qr.secret, qr.account, qr.issuer, now⟩)
  else none

/-- `TOTPManager.add_account_manual` (lines 274-299).  Cleans the secret,
validates it with pyotp and inserts the cleaned secret. -/
def addAccountManual (store : Store) (name secret issuer : String) (now : ℚ) :
    Option Store :=
  let clean := cleanSecret secret
  if totpConstructs clean then
    let key := deriveKey (storeKeys store) (issuer ++ "_" ++ name)
    some (dictInsert store key ⟨clean, name, issuer, now⟩)
  else none

/-! ## The manual entry pipeline

`ManualEntryDialog.accept` (lines 1346-1369) strips the three fields,
rejects an empty account name, an empty secret, and a secret whose
space/hyphen-free form is shorter than `MIN_SECRET_LENGTH`, each with its
own error message; `show_manual_entry` (lines 715-723) then passes the
accepted fields to `add_account_manual`. -/

/-- Python `str.strip()` whitespace (ASCII fragment; Unicode spaces are
outside the model and cannot appear in the claims' inputs). -/
def isPyWhitespace (c : Char) : Bool :=
  c = ' ' || c = '\t' || c = '\n' || c = '\r' || c = '\x0b' || c = '\x0c'

def pyStrip (s : String) : String :=
  (((s.data.dropWhile isPyWhitespace).reverse.dropWhile isPyWhitespace).reverse).asString

def MIN_SECRET_LENGTH : Nat := 16

/-- The distinct outcomes of the manual-add pipeline, one per
`messagebox.showerror` message plus success. -/
inductive ManualAddOutcome
  | ok (store : Store)
  | emptyAccount
  | emptySecret
  | secretTooShort
  | invalidSecret
deriving DecidableEq

/-- The manual-add entry point: `ManualEntryDialog.accept` followed by
`add_account_manual` on the dialog's result. -/
def manualAddEntry (store : Store) (serviceField accountField secretField : String)
    (now : ℚ) : ManualAddOutcome :=
  let service := if pyStrip serviceField = "" then "Manual" else pyStrip serviceField
  let account := pyStrip accountField
  let secret := pyStrip secretField
  if account = "" then .emptyAccount
  else if secret = "" then .emptySecret
  else if ((secret.data.filter (fun c => c ≠ ' ')).filter (fun c => c ≠ '-')).length <
      MIN_SECRET_LENGTH then .secretTooShort
  else
    match addAccountManual store account secret service now with
    | some st => .ok st
    | none => .invalidSecret

/-! ## Rename -/

/-- `TOTPManagerGUI.rename_account` store mutation (lines 935-950): look
the key up, copy the record with the new issuer/account, re-derive the
key (the record's own key is an allowed target), delete the old key if
the key changed, assign.  `none` is the "Account not found" branch. -/
def renameAccount (store : Store) (key newService newAccount : String) : Option Store :=
  match List.lookup key store with
  | none => none
  | some r =>
    let r' : AccountRecord := { r with issuer := newService, account := newAccount }
    let newKey := deriveRenameKey (storeKeys store) (newService ++ "_" ++ newAccount) key
    if newKey = key then some (dictInsert store newKey r')
    else some (dictInsert (dictRemove store key) newKey r')

/-! ## Export and import -/

structure ExportDocument where
  version : String
  accounts : Store
  exportedAt : ℚ
deriving DecidableEq

/-- `TOTPManagerGUI.export_accounts` document construction (lines
780-784). -/
def exportAll (store : Store) (now : ℚ) : ExportDocument :=
  ⟨"1.0", store, now⟩

/-- The user's answer to the conflicts dialog of `import_accounts`
(Yes = replace, No = skip, Cancel = abort); consulted only when there is
at least one conflict. -/
inductive ConflictPolicy
  | replace
  | skip
  | abort
deriving DecidableEq

/-- `TOTPManagerGUI.import_accounts` core (lines 805-825): conflicts are
the imported keys already in the store; on conflicts the policy selects
replace / skip / abort; the selected accounts update the store. -/
def importAccounts (store : Store) (doc : ExportDocument) (policy : ConflictPolicy) :
    Option Store :=
  let imported := doc.accounts
  let conflicts := (imported.map Prod.fst).filter (fun n => decide (n ∈ storeKeys store))
  if conflicts.isEmpty then some (dictUpdate store imported)
  else
    match policy with
    | .abort => none
    | .skip =>
      some (dictUpdate store (imported.filter (fun p => decide (p.1 ∉ storeKeys store))))
    | .replace => some (dictUpdate store imported)

/-! ## Persistence: load_secrets

`load_secrets` adopts whatever JSON the file parses to, so the in-memory
dict is modelled at the JSON level here. -/

inductive Json
  | null
  | bool (b : Bool)
  | num (q : ℚ)
  | str (s : String)
  | arr (elems : List Json)
  | obj (fields : List (String × Json))

/-- The backing file as seen by `load_secrets`: absent, present but not
readable/parsable (the `except` path), or parsed JSON. -/
inductive StoredFile
  | missing
  | unreadable
  | parsed (doc : Json)

def jsonHasKey (fields : List (String × Json)) (k : String) : Bool :=
  fields.any (fun p => decide (p.1 = k))

/-- `TOTPManager.load_secrets` (lines 180-201) as a function of the
previous in-memory dict (`{}` right after `__init__`, which is the only
call site, line 413) and the backing file.  Returns the new
`self.secrets` and the returned boolean. -/
def loadSecrets (prev : Json) (file : StoredFile) : Json × Bool :=
  match file with
  | .missing => (Json.obj [], true)
  | .unreadable => (prev, false)
  | .parsed doc =>
    match doc with
    | Json.obj fields =>
      if jsonHasKey fields "salt" && jsonHasKey fields "data" then (Json.obj [], true)
      else (Json.obj fields, true)
    | other => (other, true)

/-! ## Time remaining -/

/-- Python `int()` on a nonnegative float truncates toward zero; on the
rational model of time this is the floor for nonnegative inputs and the
ceiling for negative ones. -/
def pyInt (t : ℚ) : ℤ := if 0 ≤ t then ⌊t⌋ else ⌈t⌉

def TOTP_PERIOD : ℤ := 30

/-- `TOTPManager.get_time_remaining` (lines 318-320):
`TOTP_PERIOD - (int(time.time()) % TOTP_PERIOD)`. -/
def getTimeRemaining (t : ℚ) : ℤ := TOTP_PERIOD - pyInt t % TOTP_PERIOD

/-! ## otpauth URI extraction

`extract_secret_from_image` pipes the decoded QR string through
`urlparse` and `parse_qs`.  Both stdlib functions are modelled for the
inputs this call site can produce: the string is known to start with
`otpauth://totp/`, so the scheme is `otpauth`, the netloc is `totp`, and
the remainder (from the `/` at index 14) is split into fragment, query,
path parameters and path exactly as `urlparse` does.  Percent escapes are
modelled at the ASCII level: `%XX` with `XX < 0x80` decodes to that
character, larger escape bytes (which Python assembles into UTF-8
sequences, replacing invalid ones) are mapped to U+FFFD, and malformed
escapes stay verbatim. -/

/-- Split at the first occurrence of `sep`: Python `s.split(sep, 1)`,
with `none` when the separator is absent. -/
def splitFirst (sep : Char) : List Char → List Char × Option (List Char)
  | [] => ([], none)
  | c :: cs =>
    if c = sep then ([], some cs)
    else
      let r := splitFirst sep cs
      (c :: r.1, r.2)

/-- Python `s.split(sep)` for a one-character separator. -/
def splitAll (sep : Char) : List Char → List (List Char)
  | [] => [[]]
  | c :: cs =>
    let r := splitAll sep cs
    if c = sep then [] :: r
    else (c :: r.headI) :: r.tail

def hexVal (c : Char) : Option Nat :=
  if '0' ≤ c ∧ c ≤ '9' then some (c.toNat - '0'.toNat)
  else if 'a' ≤ c ∧ c ≤ 'f' then some (c.toNat - 'a'.toNat + 10)
  else if 'A' ≤ c ∧ c ≤ 'F' then some (c.toNat - 'A'.toNat + 10)
  else none

/-- `urllib.parse.unquote`, ASCII model (see the section comment). -/
def percentDecode : List Char → List Char
  | [] => []
  | '%' :: c1 :: c2 :: rest =>
    match hexVal c1, hexVal c2 with
    | some v1, some v2 =>
      let b := 16 * v1 + v2
      (if b < 128 then Char.ofNat b else '�') :: percentDecode rest
    | _, _ => '%' :: percentDecode (c1 :: c2 :: rest)
  | c :: cs => c :: percentDecode cs

/-- `unquote(nv.replace('+', ' '))` — the decoding `parse_qsl` applies to
each name and value. -/
def unquotePlus (s : List Char) : List Char :=
  percentDecode (s.map (fun c => if c = '+' then ' ' else c))

/-- `urllib.parse.parse_qs` with default arguments, as the ordered list
of name/value pairs: split on `'&'`, skip empty chunks, skip chunks with
no `'='`, skip blank values, decode names and values. -/
def parseQsl (query : List Char) : List (String × String) :=
  (splitAll '&' query).filterMap (fun part =>
    if part.isEmpty then none
    else
      match splitFirst '=' part with
      | (_, none) => none
      | (name, some value) =>
        if value.isEmpty then none
        else some ((unquotePlus name).asString, (unquotePlus value).asString))

/-- `params.get(k, [default])[0]`: the first value recorded for `k`. -/
def paramFirst (ps : List (String × String)) (k : String) : Option String :=
  (ps.filter (fun p => decide (p.1 = k))).head?.map Prod.snd

/-- Fragment then query split of everything after `otpauth://totp`
(`urlsplit`): fragment at the first `'#'`, then query at the first `'?'`
of what precedes it. -/
def urlSplitPathQuery (rest : List Char) : List Char × List Char :=
  let beforeFrag := (splitFirst '#' rest).1
  match splitFirst '?' beforeFrag with
  | (p, none) => (p, [])
  | (p, some q) => (p, q)

/-- `urlparse`'s split of `;params` out of the path: cut at the first
`';'` in the segment after the last `'/'` (`_splitparams`). -/
def stripPathParams (p : List Char) : List Char :=
  match splitFirst '/' p.reverse with
  | (_, none) => (splitFirst ';' p).1
  | (revSeg, some revInit) =>
    let seg := revSeg.reverse
    let init := revInit.reverse
    init ++ '/' :: (splitFirst ';' seg).1

/-- Python `path.lstrip('/')`. -/
def lstripSlash (p : List Char) : List Char := p.dropWhile (fun c => c = '/')

def otpauthStart : List Char := "otpauth://totp/".data

/-- The path/query split of an otpauth payload (index 14 is the `/`
terminating the netloc `totp`). -/
def otpauthPathQuery (s : String) : List Char × List Char :=
  urlSplitPathQuery (s.data.drop 14)

/-- The query parameters of an otpauth payload. -/
def otpauthParams (s : String) : List (String × String) :=
  parseQsl (otpauthPathQuery s).2

/-- The label of an otpauth payload: `parsed_url.path.lstrip('/')`. -/
def otpauthLabel (s : String) : List Char :=
  lstripSlash (stripPathParams (otpauthPathQuery s).1)

/-- `TOTPManager.extract_secret_from_image` (lines 214-245) as a function
of the decoded QR payload (`decode_qr`'s `Optional[str]`). -/
def extractSecret (raw : Option String) : Option Candidate :=
  match raw with
  | none => none
  | some s =>
    if s.data = [] then none
    else if ¬ otpauthStart.isPrefixOf s.data then none
    else
      let params := otpauthParams s
      let secretParam := paramFirst params "secret"
      let issuer0 := (paramFirst params "issuer").getD "Unknown"
      let label := otpauthLabel s
      let ia : String × String :=
        match splitFirst ':' label with
        | (_, none) => (issuer0, label.asString)
        | (issuerFromPath, some acct) =>
          (if issuer0 = "Unknown" then issuerFromPath.asString else issuer0,
            acct.asString)
      match secretParam with
      | none => none
      | some sec => if sec = "" then none else some ⟨sec, ia.2, ia.1⟩

/-! ## Helper lemmas -/

theorem decChars_of_lt {n : Nat} (h : n < 10) : decChars n = [Nat.digitChar n] := by
  rw [decChars, dif_pos h]

theorem decChars_of_ge {n : Nat} (h : ¬n < 10) :
    decChars n = decChars (n / 10) ++ [Nat.digitChar (n % 10)] := by
  rw [decChars, dif_neg h]

theorem decChars_ne_nil (n : Nat) : decChars n ≠ [] := by
  by_cases h : n < 10
  · rw [decChars_of_lt h]; simp
  · rw [decChars_of_ge h]; simp

theorem toDigitsCore_eq_decChars :
    ∀ (fuel n : Nat) (acc : List Char), n < fuel →
      Nat.toDigitsCore 10 fuel n acc = decChars n ++ acc := by
  intro fuel
  induction fuel with
  | zero => intro n acc h; omega
  | succ f ih =>
    intro n acc h
    simp only [Nat.toDigitsCore]
    by_cases h10 : n < 10
    · have hdiv : n / 10 = 0 := Nat.div_eq_of_lt h10
      rw [if_pos hdiv, decChars_of_lt h10]
      have : n % 10 = n := Nat.mod_eq_of_lt h10
      rw [this]
      rfl
    · have hdiv : n / 10 ≠ 0 := by omega
      rw [if_neg hdiv]
      have hlt : n / 10 < f := by
        have h1 : n / 10 < n := Nat.div_lt_self (by omega) (by omega)
        omega
      rw [ih (n / 10) (Nat.digitChar (n % 10) :: acc) hlt]
      rw [decChars_of_ge h10]
      simp

theorem repr_eq_decChars (n : Nat) : Nat.repr n = (decChars n).asString := by
  rw [Nat.repr, Nat.toDigits, toDigitsCore_eq_decChars (n + 1) n [] (Nat.lt_succ_self n)]
  simp

theorem digitChar_inj_lt10 :
    ∀ m : Nat, m < 10 → ∀ n : Nat, n < 10 → Nat.digitChar m = Nat.digitChar n → m = n := by
  decide

theorem append_singleton_inj {xs ys : List Char} {a b : Char}
    (h : xs ++ [a] = ys ++ [b]) : xs = ys ∧ a = b := by
  have h' := congrArg List.reverse h
  simp only [List.reverse_append, List.reverse_singleton, List.singleton_append] at h'
  obtain ⟨h1, h2⟩ := List.cons.inj h'
  refine ⟨?_, h1⟩
  have := congrArg List.reverse h2
  simpa using this

theorem decChars_injective : ∀ m n : Nat, decChars m = decChars n → m = n := by
  intro m
  induction m using Nat.strong_induction_on with
  | _ m ih =>
    intro n h
    by_cases hm : m < 10 <;> by_cases hn : n < 10
    · rw [decChars_of_lt hm, decChars_of_lt hn] at h
      exact digitChar_inj_lt10 m hm n hn (List.singleton_inj.mp h)
    · rw [decChars_of_lt hm, decChars_of_ge hn] at h
      have hlen := congrArg List.length h
      simp at hlen
      exact absurd hlen (decChars_ne_nil (n / 10))
    · rw [decChars_of_ge hm, decChars_of_lt hn] at h
      have hlen := congrArg List.length h
      simp at hlen
      exact absurd hlen (decChars_ne_nil (m / 10))
    · rw [decChars_of_ge hm, decChars_of_ge hn] at h
      obtain ⟨h1, h2⟩ := append_singleton_inj h
      have hdivlt : m / 10 < m := Nat.div_lt_self (by omega) (by omega)
      have hdiv := ih (m / 10) hdivlt (n / 10) h1
      have hmod := digitChar_inj_lt10 (m % 10) (Nat.mod_lt m (by omega)) (n % 10)
        (Nat.mod_lt n (by omega)) h2
      omega

theorem natRepr_injective : Function.Injective Nat.repr := by
  intro m n h
  rw [repr_eq_decChars, repr_eq_decChars] at h
  apply decChars_injective
  have := congrArg String.data h
  simpa [List.asString] using this

theorem suffixKey_injective (base : String) {c d : Nat}
    (h : suffixKey base c = suffixKey base d) : c = d := by
  have hd := congrArg String.data h
  simp only [suffixKey, String.data_append] at hd
  have h2 : (Nat.repr c).data = (Nat.repr d).data := by
    have := List.append_cancel_left hd
    simpa using this
  have hc : (Nat.repr c).data.asString = Nat.repr c := rfl
  have hd' : (Nat.repr d).data.asString = Nat.repr d := rfl
  apply natRepr_injective
  rw [← hc, ← hd', h2]

theorem suffixKey_ne_base (base : String) (c : Nat) : suffixKey base c ≠ base := by
  intro h
  have := congrArg (fun s => s.data.length) h
  simp only [suffixKey, String.data_append] at this
  simp at this

theorem findKeyLoop_exit (bad : String → Bool) (base name : String) (c fuel : Nat)
    (h : bad name = false) : findKeyLoop bad base name c fuel = name := by
  cases fuel with
  | zero => rfl
  | succ f => simp [findKeyLoop, h]

theorem findKeyLoop_step (bad : String → Bool) (base name : String) (c fuel : Nat)
    (h : bad name = true) :
    findKeyLoop bad base name c (fuel + 1) =
      findKeyLoop bad base (suffixKey base c) (c + 1) fuel := by
  simp [findKeyLoop, h]

/-- If the loop result is still taken, then every candidate it visited was
taken: the start name and `fuel` consecutive suffixed candidates. -/
theorem findKeyLoop_bad_all (bad : String → Bool) (base : String) :
    ∀ (fuel : Nat) (name : String) (c : Nat),
      bad (findKeyLoop bad base name c fuel) = true →
      bad name = true ∧ ∀ i, i < fuel → bad (suffixKey base (c + i)) = true := by
  intro fuel
  induction fuel with
  | zero =>
    intro name c h
    exact ⟨h, fun i hi => absurd hi (Nat.not_lt_zero i)⟩
  | succ f ih =>
    intro name c h
    by_cases hb : bad name = true
    · rw [findKeyLoop_step bad base name c f hb] at h
      obtain ⟨h0, hrest⟩ := ih (suffixKey base c) (c + 1) h
      refine ⟨hb, fun i hi => ?_⟩
      cases i with
      | zero => simpa using h0
      | succ j =>
        have := hrest j (by omega)
        have harg : c + 1 + j = c + (j + 1) := by omega
        rwa [harg] at this
    · rw [findKeyLoop_exit bad base name c (f + 1) (by simpa using hb)] at h
      exact absurd h hb

/-- Pigeonhole: if every taken name lies in `keys`, the loop run with fuel
`keys.length + 1` ends at a name that is not taken. -/
theorem findKeyLoop_not_bad (bad : String → Bool) (keys : List String) (base name : String)
    (c : Nat) (hsub : ∀ s, bad s = true → s ∈ keys) :
    bad (findKeyLoop bad base name c (keys.length + 1)) = false := by
  by_contra hcon
  have hbad : bad (findKeyLoop bad base name c (keys.length + 1)) = true := by
    simpa using hcon
  obtain ⟨-, hall⟩ := findKeyLoop_bad_all bad base (keys.length + 1) name c hbad
  set cands : List String :=
    (List.range (keys.length + 1)).map (fun i => suffixKey base (c + i)) with hcands
  have hnodup : cands.Nodup := by
    refine List.Nodup.map ?_ (List.nodup_range _)
    intro i j hij
    have := suffixKey_injective base hij
    omega
  have hmem : ∀ s ∈ cands, s ∈ keys := by
    intro s hs
    rw [hcands] at hs
    obtain ⟨i, hi, rfl⟩ := List.mem_map.mp hs
    exact hsub _ (hall i (List.mem_range.mp hi))
  have hsubset : cands.toFinset ⊆ keys.toFinset := by
    intro s hs
    exact List.mem_toFinset.mpr (hmem s (List.mem_toFinset.mp hs))
  have hcard1 : cands.toFinset.card = keys.length + 1 := by
    rw [List.toFinset_card_of_nodup hnodup, hcands]
    simp
  have hcard2 : keys.toFinset.card ≤ keys.length := List.toFinset_card_le keys
  have := Finset.card_le_card hsubset
  omega

theorem deriveKey_not_mem (keys : List String) (base : String) :
    deriveKey keys base ∉ keys := by
  have h := findKeyLoop_not_bad (fun n => decide (n ∈ keys)) keys base base 1
    (fun s hs => by simpa using hs)
  rw [deriveKey]
  simpa using h

theorem deriveRenameKey_not_mem_or_own (keys : List String) (base own : String) :
    deriveRenameKey keys base own ∉ keys ∨ deriveRenameKey keys base own = own := by
  have h := findKeyLoop_not_bad (fun n => decide (n ∈ keys ∧ n ≠ own)) keys base base 1
    (fun s hs => by
      simp only [decide_eq_true_eq] at hs
      exact hs.1)
  rw [deriveRenameKey]
  simp only [decide_eq_false_iff_not, not_and, ne_eq, not_not] at h
  by_cases hmem : findKeyLoop (fun n => decide (n ∈ keys ∧ n ≠ own)) base base 1
      (keys.length + 1) ∈ keys
  · exact Or.inr (h hmem)
  · exact Or.inl hmem

theorem deriveKey_of_not_mem (keys : List String) (base : String) (h : base ∉ keys) :
    deriveKey keys base = base := by
  rw [deriveKey]
  exact findKeyLoop_exit _ base base 1 _ (by simpa using h)

theorem deriveKey_of_mem_of_not_mem_one (keys : List String) (base : String)
    (h0 : base ∈ keys) (h1 : suffixKey base 1 ∉ keys) :
    deriveKey keys base = suffixKey base 1 := by
  rw [deriveKey]
  obtain ⟨l, hl⟩ : ∃ l, keys.length = l + 1 := by
    cases hk : keys with
    | nil => rw [hk] at h0; simp at h0
    | cons a t => exact ⟨t.length, rfl⟩
  rw [hl, findKeyLoop_step _ base base 1 _ (by simpa using h0)]
  exact findKeyLoop_exit _ base _ 2 _ (by simpa using h1)

theorem two_mem_length {l : List String} {a b : String} (ha : a ∈ l) (hb : b ∈ l)
    (hab : a ≠ b) : 2 ≤ l.length := by
  match l with
  | [] => simp at ha
  | [x] =>
    simp at ha hb
    exact absurd (ha.trans hb.symm) hab
  | x :: y :: t => simp

theorem deriveKey_of_mem_of_mem_one (keys : List String) (base : String)
    (h0 : base ∈ keys) (h1 : suffixKey base 1 ∈ keys) (h2 : suffixKey base 2 ∉ keys) :
    deriveKey keys base = suffixKey base 2 := by
  rw [deriveKey]
  obtain ⟨l, hl⟩ : ∃ l, keys.length = l + 2 := by
    have := two_mem_length h0 h1 (fun hc => suffixKey_ne_base base 1 hc.symm)
    exact ⟨keys.length - 2, by omega⟩
  rw [hl, show l + 2 + 1 = (l + 1) + 1 + 1 from rfl,
    findKeyLoop_step _ base base 1 _ (by simpa using h0),
    findKeyLoop_step _ base _ 2 _ (by simpa using h1)]
  exact findKeyLoop_exit _ base _ 3 _ (by simpa using h2)

/-! ### Dictionary lemmas -/

theorem lookup_of_not_mem_keys {α : Type} {l : List (String × α)} {k : String}
    (h : k ∉ l.map Prod.fst) : List.lookup k l = none := by
  induction l with
  | nil => rfl
  | cons p t ih =>
    simp only [List.map_cons, List.mem_cons, not_or] at h
    obtain ⟨h1, h2⟩ := h
    cases p with
    | mk k' v =>
      rw [List.lookup_cons]
      have hbeq : (k == k') = false := by simpa using h1
      rw [hbeq]
      exact ih h2

theorem lookup_append_of_not_mem_keys {α : Type} {l1 : List (String × α)}
    (l2 : List (String × α)) {k : String} (h : k ∉ l1.map Prod.fst) :
    List.lookup k (l1 ++ l2) = List.lookup k l2 := by
  induction l1 with
  | nil => rfl
  | cons p t ih =>
    simp only [List.map_cons, List.mem_cons, not_or] at h
    obtain ⟨h1, h2⟩ := h
    cases p with
    | mk k' v =>
      rw [List.cons_append, List.lookup_cons]
      have hbeq : (k == k') = false := by simpa using h1
      rw [hbeq]
      exact ih h2

theorem map_update_of_not_mem_keys {α : Type} {l : List (String × α)} {k : String}
    (v : α) (h : k ∉ l.map Prod.fst) :
    l.map (fun p => if p.1 = k then (k, v) else p) = l := by
  induction l with
  | nil => rfl
  | cons p t ih =>
    simp only [List.map_cons, List.mem_cons, not_or] at h
    obtain ⟨h1, h2⟩ := h
    simp only [List.map_cons]
    rw [if_neg (by simpa using (Ne.symm h1)), ih h2]

theorem lookup_dictInsert_self {α : Type} (l : List (String × α)) (k : String) (v : α) :
    List.lookup k (dictInsert l k v) = some v := by
  rw [dictInsert]
  by_cases hk : k ∈ l.map Prod.fst
  · rw [if_pos hk]
    induction l with
    | nil => simp at hk
    | cons p t ih =>
      simp only [List.map_cons]
      by_cases hp : p.1 = k
      · rw [if_pos hp, List.lookup_cons]
        simp
      · rw [if_neg hp]
        cases p with
        | mk k' v' =>
          simp only at hp
          rw [List.lookup_cons]
          have hbeq : (k == k') = false := by
            simp only [beq_eq_false_iff_ne, ne_eq]
            exact fun hc => hp hc.symm
          rw [hbeq]
          apply ih
          simp only [List.map_cons, List.mem_cons] at hk
          rcases hk with hk | hk
          · exact absurd hk.symm hp
          · exact hk
  · rw [if_neg hk, lookup_append_of_not_mem_keys _ hk, List.lookup_cons]
    simp

theorem keys_dictInsert_of_mem {α : Type} {l : List (String × α)} {k : String} (v : α)
    (h : k ∈ l.map Prod.fst) :
    (dictInsert l k v).map Prod.fst = l.map Prod.fst := by
  rw [dictInsert, if_pos h, List.map_map]
  apply List.map_congr_left
  intro p _
  by_cases hp : p.1 = k
  · simp [hp]
  · simp [hp]

theorem keys_dictInsert_of_not_mem {α : Type} {l : List (String × α)} {k : String} (v : α)
    (h : k ∉ l.map Prod.fst) :
    (dictInsert l k v).map Prod.fst = l.map Prod.fst ++ [k] := by
  rw [dictInsert, if_neg h]
  simp

theorem nodup_keys_dictInsert {α : Type} {l : List (String × α)} (k : String) (v : α)
    (h : (l.map Prod.fst).Nodup) : ((dictInsert l k v).map Prod.fst).Nodup := by
  by_cases hk : k ∈ l.map Prod.fst
  · rwa [keys_dictInsert_of_mem v hk]
  · rw [keys_dictInsert_of_not_mem v hk]
    simp only [List.nodup_append, List.nodup_cons, List.not_mem_nil, not_false_iff,
      List.nodup_nil, and_true, true_and]
    constructor
    · exact h
    · intro a ha hc
      simp only [List.mem_singleton] at hc
      exact hk (hc ▸ ha)

theorem mem_keys_of_lookup {α : Type} {l : List (String × α)} {k : String} {v : α}
    (h : List.lookup k l = some v) : k ∈ l.map Prod.fst := by
  induction l with
  | nil => simp [List.lookup] at h
  | cons p t ih =>
    cases p with
    | mk k' v' =>
      rw [List.lookup_cons] at h
      by_cases hbeq : k = k'
      · simp [hbeq]
      · have : (k == k') = false := by simpa using hbeq
        rw [this] at h
        simp only [List.map_cons, List.mem_cons]
        exact Or.inr (ih h)

theorem dictInsert_self_of_lookup {α : Type} {l : List (String × α)} {k : String} {v : α}
    (hnd : (l.map Prod.fst).Nodup) (h : List.lookup k l = some v) :
    dictInsert l k v = l := by
  rw [dictInsert, if_pos (mem_keys_of_lookup h)]
  induction l with
  | nil => rfl
  | cons p t ih =>
    cases p with
    | mk k' v' =>
      simp only [List.map_cons, List.nodup_cons] at hnd
      obtain ⟨hk', hndt⟩ := hnd
      rw [List.lookup_cons] at h
      simp only [List.map_cons]
      by_cases hbeq : k = k'
      · have hb : (k == k') = true := by simpa using hbeq
        rw [hb] at h
        have hv : v' = v := by simpa using h
        rw [if_pos hbeq.symm, hbeq, hv]
        rw [map_update_of_not_mem_keys v (hbeq ▸ hk')]
      · have hb : (k == k') = false := by simpa using hbeq
        rw [hb] at h
        rw [if_neg (fun hc => hbeq hc.symm), ih hndt h]

theorem mem_keys_dictRemove {α : Type} {l : List (String × α)} {k j : String}
    (h : j ∈ (dictRemove l k).map Prod.fst) : j ∈ l.map Prod.fst := by
  rw [dictRemove] at h
  rcases List.mem_map.mp h with ⟨p, hp, rfl⟩
  exact List.mem_map.mpr ⟨p, List.mem_of_mem_filter hp, rfl⟩

theorem dictUpdate_disjoint {α : Type} :
    ∀ (s2 acc : List (String × α)), (s2.map Prod.fst).Nodup →
      (∀ j ∈ s2.map Prod.fst, j ∉ acc.map Prod.fst) →
      dictUpdate acc s2 = acc ++ s2 := by
  intro s2
  induction s2 with
  | nil => intro acc _ _; simp [dictUpdate]
  | cons p t ih =>
    intro acc hnd hdisj
    simp only [List.map_cons, List.nodup_cons] at hnd
    obtain ⟨hp, hndt⟩ := hnd
    have hp_acc : p.1 ∉ acc.map Prod.fst := hdisj p.1 (by simp)
    have step : dictUpdate acc (p :: t) = dictUpdate (acc ++ [p]) t := by
      rw [dictUpdate, List.foldl_cons]
      rw [dictUpdate, dictInsert, if_neg hp_acc]
    have hdisj' : ∀ j ∈ t.map Prod.fst, j ∉ (acc ++ [p]).map Prod.fst := by
      intro j hj
      simp only [List.map_append, List.mem_append, List.map_cons, List.map_nil,
        List.mem_cons, List.not_mem_nil, or_false, not_or]
      refine ⟨hdisj j (by simp [hj]), ?_⟩
      intro hc
      exact hp (hc ▸ hj)
    rw [step, ih (acc ++ [p]) hndt hdisj']
    simp

theorem jsonHasKey_eq_true {fields : List (String × Json)} {k : String}
    (h : k ∈ fields.map Prod.fst) : jsonHasKey fields k = true := by
  rw [jsonHasKey, List.any_eq_true]
  rcases List.mem_map.mp h with ⟨p, hp, rfl⟩
  exact ⟨p, hp, by simp⟩

/-! ## Claims -/

/-- C3: for every store `S`, exporting `S` to a document (version "1.0",
accounts mapping, exported_at timestamp) and importing that document with
the replace policy into an empty store yields a store equal to `S`
key-by-key and field-by-field. -/
theorem claim3_roundtrip (S : Store) (t : ℚ) (hnd : (storeKeys S).Nodup) :
    importAccounts [] (exportAll S t) ConflictPolicy.replace = some S := by
  rw [importAccounts, exportAll]
  simp only [storeKeys, List.map_nil, List.not_mem_nil, decide_False, List.filter_false,
    List.isEmpty_nil, if_true]
  rw [dictUpdate_disjoint S [] hnd (by simp)]
  simp

theorem claim3_roundtrip_witness :
    importAccounts [] (exportAll [("Ex_a", ⟨"JBSWY3DPEHPK3PXP", "a", "Ex", 2⟩)] 5)
        ConflictPolicy.replace =
      some [("Ex_a", ⟨"JBSWY3DPEHPK3PXP", "a", "Ex", 2⟩)] :=
  claim3_roundtrip [("Ex_a", ⟨"JBSWY3DPEHPK3PXP", "a", "Ex", 2⟩)] 5 (by decide)

/-- C7: loading a document whose top level is an object containing exactly
the keys `salt` and `data` (the legacy encrypted format) makes the store
initialize empty and load report success; the legacy document is never
migrated. -/
theorem claim7_legacy_empty (prev : Json) (fields : List (String × Json))
    (hsalt : "salt" ∈ fields.map Prod.fst) (hdata : "data" ∈ fields.map Prod.fst)
    (_hexact : ∀ k ∈ fields.map Prod.fst, k = "salt" ∨ k = "data") :
    loadSecrets prev (StoredFile.parsed (Json.obj fields)) = (Json.obj [], true) := by
  rw [loadSecrets]
  rw [jsonHasKey_eq_true hsalt, jsonHasKey_eq_true hdata]
  rfl

theorem claim7_legacy_empty_witness :
    loadSecrets (Json.obj [])
        (StoredFile.parsed (Json.obj [("salt", Json.str "x"), ("data", Json.str "y")])) =
      (Json.obj [], true) :=
  claim7_legacy_empty (Json.obj []) [("salt", Json.str "x"), ("data", Json.str "y")]
    (by decide) (by decide) (by decide)

/-- C8: load never raises on a missing backing file (the store becomes
empty and load succeeds); on corrupt or unreadable content load reports
the error to the caller (returns false) while the store — empty at the
only call site, right after construction — stays empty rather than
aborting. -/
theorem claim8_load_robust :
    (∀ prev : Json, loadSecrets prev StoredFile.missing = (Json.obj [], true)) ∧
    loadSecrets (Json.obj []) StoredFile.unreadable = (Json.obj [], false) ∧
    (∀ prev : Json, (loadSecrets prev StoredFile.unreadable).2 = false) :=
  ⟨fun _ => rfl, rfl, fun _ => rfl⟩

/-- C10: for every timestamp `t ≥ 0`, `get_time_remaining` equals
`30 - (floor t mod 30)`, lies in `[1, 30]`, is non-increasing within a
30-second window, and equals 30 exactly at each window boundary. -/
theorem claim10_time_remaining (t : ℚ) (ht : 0 ≤ t) :
    getTimeRemaining t = 30 - ⌊t⌋ % 30 ∧
    1 ≤ getTimeRemaining t ∧ getTimeRemaining t ≤ 30 ∧
    (∀ d : ℚ, 0 ≤ d → ⌊t + d⌋ / 30 = ⌊t⌋ / 30 →
      getTimeRemaining (t + d) ≤ getTimeRemaining t) ∧
    (⌊t⌋ % 30 = 0 → getTimeRemaining t = 30) := by
  have hpy : pyInt t = ⌊t⌋ := if_pos ht
  have hmod1 : 0 ≤ ⌊t⌋ % 30 := Int.emod_nonneg _ (by norm_num)
  have hmod2 : ⌊t⌋ % 30 < 30 := Int.emod_lt_of_pos _ (by norm_num)
  refine ⟨?_, ?_, ?_, ?_, ?_⟩
  · rw [getTimeRemaining, TOTP_PERIOD, hpy]
  · rw [getTimeRemaining, TOTP_PERIOD, hpy]; omega
  · rw [getTimeRemaining, TOTP_PERIOD, hpy]; omega
  · intro d hd hwin
    have ht' : 0 ≤ t + d := by linarith
    have hle : ⌊t⌋ ≤ ⌊t + d⌋ := Int.floor_le_floor (by linarith)
    rw [getTimeRemaining, getTimeRemaining, TOTP_PERIOD, hpy, pyInt, if_pos ht']
    omega
  · intro h0
    rw [getTimeRemaining, TOTP_PERIOD, hpy, h0]
    omega

theorem claim10_time_remaining_witness :
    getTimeRemaining (65 : ℚ) = 30 - ⌊(65 : ℚ)⌋ % 30 ∧
    1 ≤ getTimeRemaining (65 : ℚ) ∧ getTimeRemaining (65 : ℚ) ≤ 30 ∧
    getTimeRemaining (60 : ℚ) = 30 :=
  ⟨(claim10_time_remaining (65 : ℚ) (by decide)).1,
    (claim10_time_remaining (65 : ℚ) (by decide)).2.1,
    (claim10_time_remaining (65 : ℚ) (by decide)).2.2.1,
    (claim10_time_remaining (60 : ℚ) (by decide)).2.2.2.2 (by decide)⟩

/-- C4 counterexample: with the base key AND its `_1` variant both
present, a new add with the same issuer/account receives suffix `_2`, not
`_1` — the claim's "yields the key with suffix `_1`" fails for this store
state. -/
theorem claim4_counterexample :
    addAccountManual
        [("A_b", ⟨"JBSWY3DPEHPK3PXP", "b", "A", 0⟩),
          ("A_b_1", ⟨"JBSWY3DPEHPK3PXP", "b", "A", 1⟩)]
        "b" "JBSWY3DPEHPK3PXP" "A" 2 =
      some [("A_b", ⟨"JBSWY3DPEHPK3PXP", "b", "A", 0⟩),
        ("A_b_1", ⟨"JBSWY3DPEHPK3PXP", "b", "A", 1⟩),
        ("A_b_2", ⟨"JBSWY3DPEHPK3PXP", "b", "A", 2⟩)] ∧
    ("A_b_2" : String) ≠ "A_b_1" := by decide

/-- C4 (amended): the derived key is the smallest free candidate among
`base, base_1, base_2, …`, so it is `_1` when `_1` is free, `_2` for a
third identical add, and never an existing key; hence both add paths
preserve distinctness of the store keys. -/
theorem claim4_amended :
    (∀ (keys : List String) (base : String), deriveKey keys base ∉ keys) ∧
    (∀ (keys : List String) (base : String),
      base ∈ keys → suffixKey base 1 ∉ keys → deriveKey keys base = suffixKey base 1) ∧
    (∀ (keys : List String) (base : String),
      base ∈ keys → suffixKey base 1 ∈ keys → suffixKey base 2 ∉ keys →
        deriveKey keys base = suffixKey base 2) ∧
    (∀ (store st' : Store) (qr : Candidate) (now : ℚ), (storeKeys store).Nodup →
      addAccountFromQr store qr now = some st' → (storeKeys st').Nodup) ∧
    (∀ (store st' : Store) (nm sec iss : String) (now : ℚ), (storeKeys store).Nodup →
      addAccountManual store nm sec iss now = some st' → (storeKeys st').Nodup) := by
  refine ⟨deriveKey_not_mem, deriveKey_of_mem_of_not_mem_one, deriveKey_of_mem_of_mem_one,
    ?_, ?_⟩
  · intro store st' qr now hnd heq
    simp only [addAccountFromQr] at heq
    split at heq
    · simp only [Option.some.injEq] at heq
      subst heq
      exact nodup_keys_dictInsert _ _ hnd
    · exact absurd heq (by simp)
  · intro store st' nm sec iss now hnd heq
    simp only [addAccountManual] at heq
    split at heq
    · simp only [Option.some.injEq] at heq
      subst heq
      exact nodup_keys_dictInsert _ _ hnd
    · exact absurd heq (by simp)

theorem claim4_amended_witness :
    deriveKey ["Ex_a"] "Ex_a" = suffixKey "Ex_a" 1 ∧
    deriveKey ["Ex_a", "Ex_a_1"] "Ex_a" = suffixKey "Ex_a" 2 ∧
    deriveKey ["Ex_a"] "Ex_a" ∉ (["Ex_a"] : List String) ∧
    (storeKeys [("Ex_a", (⟨"JBSWY3DPEHPK3PXP", "a", "Ex", 0⟩ : AccountRecord)),
      ("Ex_a_1", ⟨"JBSWY3DPEHPK3PXP", "a", "Ex", 1⟩)]).Nodup :=
  ⟨claim4_amended.2.1 ["Ex_a"] "Ex_a" (by decide) (by decide),
    claim4_amended.2.2.1 ["Ex_a", "Ex_a_1"] "Ex_a" (by decide) (by decide) (by decide),
    claim4_amended.1 ["Ex_a"] "Ex_a",
    claim4_amended.2.2.2.2 [("Ex_a", ⟨"JBSWY3DPEHPK3PXP", "a", "Ex", 0⟩)] _
      "a" "JBSWY3DPEHPK3PXP" "Ex" 1 (by decide) (by decide)⟩

/-- C2 counterexample: `add_account_from_qr` validates the candidate
secret case-insensitively and inserts it verbatim, so a lowercase secret
reaches the store un-normalized — refuting "every record committed to the
store by either add path has a normalized secret". -/
theorem claim2_counterexample :
    addAccountFromQr [] ⟨"jbswy3dpehpk3pxp", "alice", "Ex"⟩ 0 =
      some [("Ex_alice", ⟨"jbswy3dpehpk3pxp", "alice", "Ex", 0⟩)] ∧
    isNormalizedSecret "jbswy3dpehpk3pxp" = false := by decide

/-- C2 (amended): `add_from_qr` validates the candidate's secret as-is
(base32 decoding is case-insensitive) and commits it verbatim, without
normalization; only the manual path commits the normalized
(space/hyphen-free, upper-cased) secret. -/
theorem claim2_amended :
    (∀ (store st' : Store) (qr : Candidate) (now : ℚ),
      addAccountFromQr store qr now = some st' →
        totpConstructs qr.secret = true ∧
        ∃ k, k ∉ storeKeys store ∧
          List.lookup k st' = some ⟨qr.secret, qr.account, qr.issuer, now⟩) ∧
    (∀ (store st' : Store) (nm sec iss : String) (now : ℚ),
      addAccountManual store nm sec iss now = some st' →
        ∃ k, k ∉ storeKeys store ∧
          List.lookup k st' = some ⟨cleanSecret sec, nm, iss, now⟩) ∧
    totpConstructs "jbswy3dpehpk3pxp" = true := by
  refine ⟨?_, ?_, by decide⟩
  · intro store st' qr now heq
    simp only [addAccountFromQr] at heq
    split at heq
    · simp only [Option.some.injEq] at heq
      subst heq
      refine ⟨by assumption, deriveKey (storeKeys store) (qr.issuer ++ "_" ++ qr.account),
        deriveKey_not_mem _ _, lookup_dictInsert_self _ _ _⟩
    · exact absurd heq (by simp)
  · intro store st' nm sec iss now heq
    simp only [addAccountManual] at heq
    split at heq
    · simp only [Option.some.injEq] at heq
      subst heq
      exact ⟨deriveKey (storeKeys store) (iss ++ "_" ++ nm),
        deriveKey_not_mem _ _, lookup_dictInsert_self _ _ _⟩
    · exact absurd heq (by simp)

theorem claim2_amended_witness :
    totpConstructs ("jbswy3dpehpk3pxp" : String) = true ∧
    (∃ k, k ∉ storeKeys ([] : Store) ∧
      List.lookup k
          [("Ex_alice", (⟨"jbswy3dpehpk3pxp", "alice", "Ex", (0 : ℚ)⟩ : AccountRecord))] =
        some ⟨"jbswy3dpehpk3pxp", "alice", "Ex", 0⟩) ∧
    (∃ k, k ∉ storeKeys ([] : Store) ∧
      List.lookup k
          [("Test_bob", (⟨"JBSWY3DPEHPK3PXP", "bob", "Test", (0 : ℚ)⟩ : AccountRecord))] =
        some ⟨cleanSecret "JBSWY3DPEHPK3PXP", "bob", "Test", 0⟩) :=
  ⟨(claim2_amended.1 [] [("Ex_alice", ⟨"jbswy3dpehpk3pxp", "alice", "Ex", 0⟩)]
      ⟨"jbswy3dpehpk3pxp", "alice", "Ex"⟩ 0 (by decide)).1,
    (claim2_amended.1 [] [("Ex_alice", ⟨"jbswy3dpehpk3pxp", "alice", "Ex", 0⟩)]
      ⟨"jbswy3dpehpk3pxp", "alice", "Ex"⟩ 0 (by decide)).2,
    claim2_amended.2.1 [] [("Test_bob", ⟨"JBSWY3DPEHPK3PXP", "bob", "Test", 0⟩)]
      "bob" "JBSWY3DPEHPK3PXP" "Test" 0 (by decide)⟩

/-- C9 counterexample: a record stored under an orphaned suffixed key
(`A_b_1` while `A_b` is free — reachable by add, add, remove), renamed to
its own current issuer/account pair, migrates to `A_b`: the rename is not
a no-op and the key changes. -/
theorem claim9_counterexample :
    renameAccount [("A_b_1", ⟨"JBSWY3DPEHPK3PXP", "b", "A", 0⟩)] "A_b_1" "A" "b" =
      some [("A_b", ⟨"JBSWY3DPEHPK3PXP", "b", "A", 0⟩)] ∧
    ("A_b" : String) ≠ "A_b_1" := by decide

/-- C9 (amended): renaming a record to its own current issuer/account
pair succeeds, and is a no-op with the key unchanged whenever the
record's key is exactly the derived base key (an orphaned suffixed key
may instead be re-canonicalized to an earlier free candidate); every
successful rename preserves the record's `secret` and `added` fields, and
the record's own current key is an allowed collision target of the
suffix search. -/
theorem claim9_amended :
    (∀ (store : Store) (k : String) (r : AccountRecord), (storeKeys store).Nodup →
      List.lookup k store = some r → k = r.issuer ++ "_" ++ r.account →
      renameAccount store k r.issuer r.account = some store) ∧
    (∀ (store st' : Store) (k ni na : String), renameAccount store k ni na = some st' →
      ∃ (r : AccountRecord) (k' : String), List.lookup k store = some r ∧
        List.lookup k' st' = some ⟨r.secret, na, ni, r.added⟩) ∧
    (∀ (keys : List String) (base own : String),
      deriveRenameKey keys base own ∉ keys ∨ deriveRenameKey keys base own = own) := by
  refine ⟨?_, ?_, deriveRenameKey_not_mem_or_own⟩
  · intro store k r hnd hlk hbase
    have hkey : deriveRenameKey (storeKeys store) (r.issuer ++ "_" ++ r.account) k = k := by
      rw [← hbase, deriveRenameKey]
      exact findKeyLoop_exit _ _ _ _ _ (by simp)
    simp only [renameAccount, hlk, hkey, if_pos]
    rw [show ({ r with issuer := r.issuer, account := r.account } : AccountRecord) = r
      from rfl]
    rw [dictInsert_self_of_lookup hnd hlk]
  · intro store st' k ni na heq
    cases hlk : List.lookup k store with
    | none =>
      simp only [renameAccount, hlk] at heq
      exact Option.noConfusion heq
    | some r =>
      simp only [renameAccount, hlk] at heq
      by_cases hkk :
          deriveRenameKey (storeKeys store) (ni ++ "_" ++ na) k = k
      · rw [if_pos hkk] at heq
        simp only [Option.some.injEq] at heq
        subst heq
        exact ⟨r, _, rfl, lookup_dictInsert_self _ _ _⟩
      · rw [if_neg hkk] at heq
        simp only [Option.some.injEq] at heq
        subst heq
        exact ⟨r, _, rfl, lookup_dictInsert_self _ _ _⟩

theorem claim9_amended_witness :
    renameAccount [("A_b", ⟨"JBSWY3DPEHPK3PXP", "b", "A", 0⟩)] "A_b" "A" "b" =
      some [("A_b", ⟨"JBSWY3DPEHPK3PXP", "b", "A", 0⟩)] ∧
    (∃ (r : AccountRecord) (k' : String),
      List.lookup "A_b_1"
          [("A_b_1", (⟨"JBSWY3DPEHPK3PXP", "b", "A", (0 : ℚ)⟩ : AccountRecord))] = some r ∧
        List.lookup k' [("A_b", (⟨"JBSWY3DPEHPK3PXP", "b", "A", (0 : ℚ)⟩ : AccountRecord))] =
          some ⟨r.secret, "b", "A", r.added⟩) :=
  ⟨claim9_amended.1 _ "A_b" ⟨"JBSWY3DPEHPK3PXP", "b", "A", 0⟩ (by decide) (by decide)
      (by decide),
    claim9_amended.2.1 _ _ "A_b_1" "A" "b" (by decide)⟩

theorem cleanSecret_length (s : String) :
    (cleanSecret s).length =
      ((s.data.filter (fun c => c ≠ ' ')).filter (fun c => c ≠ '-')).length := by
  show (pyUpper _).length = _
  simp [pyUpper]

/-- C1 counterexample: the empty secret has normalized length 0 < 16, yet
the manual-add entry point rejects it with the distinct empty-secret
error ("Please enter the secret key"), not with the too-short error. -/
theorem claim1_counterexample :
    (cleanSecret "").length < MIN_SECRET_LENGTH ∧
    manualAddEntry [] "Test" "bob" "" 0 = ManualAddOutcome.emptySecret ∧
    ManualAddOutcome.emptySecret ≠ ManualAddOutcome.secretTooShort := by decide

/-- C1 (amended): provided the trimmed account name and trimmed secret
are nonempty (empty fields are rejected first with their own distinct
errors), a secret whose normalized form is shorter than 16 characters is
rejected with the distinct too-short error before TOTP construction;
`add_manual("bob", "short", "Test")` fails that way while
`add_manual("bob", "JBSWY3DPEHPK3PXP", "Test")` succeeds. -/
theorem claim1_amended :
    (∀ (store : Store) (serviceField accountField secretField : String) (now : ℚ),
      pyStrip accountField ≠ "" → pyStrip secretField ≠ "" →
      (cleanSecret (pyStrip secretField)).length < MIN_SECRET_LENGTH →
      manualAddEntry store serviceField accountField secretField now =
        ManualAddOutcome.secretTooShort) ∧
    manualAddEntry [] "Test" "bob" "short" 0 = ManualAddOutcome.secretTooShort ∧
    manualAddEntry [] "Test" "bob" "JBSWY3DPEHPK3PXP" 0 =
      ManualAddOutcome.ok [("Test_bob", ⟨"JBSWY3DPEHPK3PXP", "bob", "Test", 0⟩)] := by
  refine ⟨?_, by decide, by decide⟩
  intro store sf af ssf now hacc hsec hlen
  rw [cleanSecret_length] at hlen
  simp only [manualAddEntry]
  rw [if_neg hacc, if_neg hsec, if_pos hlen]

theorem claim1_amended_witness :
    manualAddEntry [] "X" "alice" "ab-12" 3 = ManualAddOutcome.secretTooShort :=
  claim1_amended.1 [] "X" "alice" "ab-12" 3 (by decide) (by decide) (by decide)

/-- C6: parse returns none when the raw payload is none, when it does not
start with the literal otpauth://totp/ prefix, or when the secret query
parameter is missing — never a fragmentary record. -/
theorem claim6_parse_misses :
    extractSecret none = none ∧
    (∀ s : String, otpauthStart.isPrefixOf s.data = false → extractSecret (some s) = none) ∧
    (∀ s : String, paramFirst (otpauthParams s) "secret" = none →
      extractSecret (some s) = none) := by
  refine ⟨rfl, ?_, ?_⟩
  · intro s h
    rw [extractSecret]
    by_cases h0 : s.data = []
    · rw [if_pos h0]
    · rw [if_neg h0, if_pos (by simp [h])]
  · intro s h
    rw [extractSecret]
    by_cases h0 : s.data = []
    · rw [if_pos h0]
    · rw [if_neg h0]
      by_cases h1 : otpauthStart.isPrefixOf s.data = true
      · rw [if_neg (by simp [h1])]
        simp only [h]
      · rw [if_pos (by simp [h1])]

theorem claim6_parse_misses_witness :
    extractSecret (some "not-a-totp-uri") = none ∧
    extractSecret (some "otpauth://totp/Ex?issuer=Q") = none :=
  ⟨claim6_parse_misses.2.1 "not-a-totp-uri" (by decide),
    claim6_parse_misses.2.2 "otpauth://totp/Ex?issuer=Q" (by decide)⟩

/-- C5: when parse succeeds and the label contains a colon, the substring
before the first colon is the issuer-from-label and the remainder is the
account; the issuer-from-label becomes the result's issuer exactly when
the issuer query parameter is absent or equals "Unknown", otherwise the
query parameter wins; and the reference example parses as specified. -/
theorem claim5_label_split :
    (∀ (s : String) (cand : Candidate) (bef aft : List Char),
      extractSecret (some s) = some cand →
      splitFirst ':' (otpauthLabel s) = (bef, some aft) →
      cand.account = aft.asString ∧
      ((paramFirst (otpauthParams s) "issuer" = none ∨
          paramFirst (otpauthParams s) "issuer" = some "Unknown") →
        cand.issuer = bef.asString) ∧
      (∀ v, paramFirst (otpauthParams s) "issuer" = some v → v ≠ "Unknown" →
        cand.issuer = v)) ∧
    extractSecret
        (some "otpauth://totp/Example:alice@example.com?secret=JBSWY3DPEHPK3PXP&issuer=Example") =
      some ⟨"JBSWY3DPEHPK3PXP", "alice@example.com", "Example"⟩ := by
  refine ⟨?_, by decide⟩
  intro s cand bef aft h hsplit
  rw [extractSecret] at h
  by_cases h0 : s.data = []
  · rw [if_pos h0] at h
    exact Option.noConfusion h
  by_cases h1 : otpauthStart.isPrefixOf s.data = true
  case neg =>
    rw [if_neg h0, if_pos (by simp [h1])] at h
    exact Option.noConfusion h
  rw [if_neg h0, if_neg (by simp [h1])] at h
  cases hsec : paramFirst (otpauthParams s) "secret" with
  | none =>
    simp only [hsec] at h
    exact Option.noConfusion h
  | some sec =>
    simp only [hsec, hsplit] at h
    by_cases hse : sec = ""
    · rw [if_pos hse] at h
      exact Option.noConfusion h
    · rw [if_neg hse] at h
      simp only [Option.some.injEq] at h
      subst h
      refine ⟨rfl, ?_, ?_⟩
      · intro hparam
        rcases hparam with hp | hp <;>
          simp [hp]
      · intro v hv hne
        simp [hv, hne]

theorem claim5_label_split_witness :
    (⟨"JBSWY3DPEHPK3PXP", "alice@example.com", "Example"⟩ : Candidate).account =
      ("alice@example.com".data).asString ∧
    (⟨"JBSWY3DPEHPK3PXP", "alice@example.com", "Example"⟩ : Candidate).issuer = "Example" :=
  ⟨(claim5_label_split.1
      "otpauth://totp/Example:alice@example.com?secret=JBSWY3DPEHPK3PXP&issuer=Example"
      ⟨"JBSWY3DPEHPK3PXP", "alice@example.com", "Example"⟩
      "Example".data "alice@example.com".data (by decide) (by decide)).1,
    (claim5_label_split.1
      "otpauth://totp/Example:alice@example.com?secret=JBSWY3DPEHPK3PXP&issuer=Example"
      ⟨"JBSWY3DPEHPK3PXP", "alice@example.com", "Example"⟩
      "Example".data "alice@example.com".data (by decide) (by decide)).2.2
      "Example" (by decide) (by decide)⟩

end Temp2FA

